import Mathlib

set_option maxRecDepth 10000

/-!
Verification development for the streaming statistics engine of
src/src/App.jsx (deriv-ticks-visualizer).  The pure statistics core is
embedded shallowly: JavaScript numbers are modelled by exact rationals,
JavaScript arrays by lists, the minute-bin Map by a function from keys
to optional bins, and the React refs and state touched by each handler
by explicit record state.  The transcendental normalisation factor of
the incomplete gamma function (the only part of the core with no exact
rational value) is an explicit function parameter.
-/

/- ------------------------------------------------------------------
   Digit extractor (getLastDigit, App.jsx lines 11-16)
------------------------------------------------------------------- -/

/-- JavaScript number semantics relevant to getLastDigit: a value is
NaN, an infinity, or a finite value, the latter modelled as an exact
rational. -/
inductive JSNumber where
  | nan : JSNumber
  | posInf : JSNumber
  | negInf : JSNumber
  | num : ℚ → JSNumber
deriving DecidableEq

/-- The ten decimal digit characters. -/
def digitChars : List Char := ['0', '1', '2', '3', '4', '5', '6', '7', '8', '9']

/-- Last character of Number(quote).toFixed(pipSize).  The ECMAScript
toFixed throws a RangeError when the fraction-digit count exceeds 100
(before even looking at the number), modelled as none.  Otherwise:
toFixed of NaN renders as the three letters N a N (last character N),
an infinity renders ending in the letter y; a finite value renders
ending in the last digit of the scaled value rounded to the nearest
integer with ties going to the larger candidate (the ECMAScript
toFixed rule), which is floor at the value plus one half; the
displayed digit is the low digit of the magnitude of that integer. -/
def toFixedLastChar (quote : JSNumber) (pip : ℕ) : Option Char :=
  if 100 < pip then none
  else some (match quote with
    | JSNumber.nan => 'N'
    | JSNumber.posInf => 'y'
    | JSNumber.negInf => 'y'
    | JSNumber.num q =>
        digitChars.getD ((Int.floor (q * 10 ^ pip + 1 / 2)).natAbs % 10) '0')

/-- Number(ch) for a single character string: a decimal digit character
parses to its value, any other character that toFixedLastChar can
produce parses to NaN, modelled as none. -/
def numberOfDigitChar (c : Char) : Option ℕ :=
  if 48 ≤ c.toNat ∧ c.toNat ≤ 57 then some (c.toNat - 48) else none

/-- getLastDigit from App.jsx: format the quote, take the last
character, parse it, and fall back to 0 when the parse is not a finite
number.  The function body has no catch, so the RangeError of toFixed
escapes to the caller; an escaping exception is modelled as none,
while some d is a normal return of d. -/
def getLastDigit (quote : JSNumber) (pip : ℕ) : Option ℕ :=
  match toFixedLastChar quote pip with
  | none => none
  | some ch =>
      match numberOfDigitChar ch with
      | some d => some d
      | none => some 0

/- ------------------------------------------------------------------
   Rolling window counter (pushDigit, App.jsx lines 296-311)
------------------------------------------------------------------- -/

/-- Rolling window state: the FIFO of recent digits (digitWindowRef)
together with the ten histogram counts (the counts React state).  The
counts are integers so that the decrement on eviction is exact. -/
structure RollingState where
  window : List ℕ
  counts : List ℤ
deriving DecidableEq

/-- The reset state: empty FIFO, ten zero counts. -/
def resetRolling : RollingState := ⟨[], List.replicate 10 0⟩

/-- pushDigit from App.jsx: increment the slot of the new digit, append
the digit to the FIFO, and when the FIFO now exceeds windowSize shift
the oldest entry out and decrement its slot. -/
def pushDigit (windowSize : ℕ) (s : RollingState) (d : ℕ) : RollingState :=
  let next := s.counts.set d (s.counts.getD d 0 + 1)
  let w := s.window ++ [d]
  if windowSize < w.length then
    ⟨w.tail, next.set (w.headD 0) (next.getD (w.headD 0) 0 - 1)⟩
  else
    ⟨w, next⟩

/-- Reading a list at an index after a single-position write. -/
theorem getD_set_eq_ite (l : List ℤ) (j : ℕ) (v : ℤ) (i : ℕ) :
    (l.set j v).getD i 0 = if i = j ∧ j < l.length then v else l.getD i 0 := by
  induction l generalizing i j with
  | nil => simp
  | cons a t ih =>
      cases j with
      | zero =>
          cases i with
          | zero => simp
          | succ i2 => simp
      | succ j2 =>
          cases i with
          | zero => simp
          | succ i2 =>
              simp only [List.set_cons_succ, List.getD_cons_succ, List.length_cons]
              rw [ih]
              exact if_congr (by constructor <;> (intro hh; exact ⟨by omega, by omega⟩)) rfl rfl

/-- A list sums to the sum of its positional reads. -/
theorem sum_eq_sum_getD (l : List ℤ) :
    l.sum = ∑ i in Finset.range l.length, l.getD i 0 := by
  induction l with
  | nil => simp
  | cons a t ih =>
      rw [List.sum_cons, List.length_cons, Finset.sum_range_succ']
      simp only [List.getD_cons_succ, List.getD_cons_zero]
      rw [← ih]
      ring

/-- Prepending an element shifts one frequency slot, stated over the
integers. -/
theorem count_cons_int (i c : ℕ) (t : List ℕ) :
    ((c :: t).count i : ℤ) = (t.count i : ℤ) + if i = c then 1 else 0 := by
  rw [List.count_cons]
  by_cases h : c = i
  · subst h
    simp
  · have h2 : ¬i = c := fun hh => h hh.symm
    simp [h, h2]

/-- The digit frequencies of a list of digits below ten sum to its
length. -/
theorem sum_counts_eq_length (w : List ℕ) (hw : ∀ d ∈ w, d < 10) :
    (∑ i in Finset.range 10, (w.count i : ℤ)) = w.length := by
  induction w with
  | nil => simp
  | cons a t ih =>
      have ha : a < 10 := hw a (by simp)
      have ht : ∀ d ∈ t, d < 10 := fun d hd => hw d (by simp [hd])
      have hstep : ∀ i ∈ Finset.range 10,
          ((a :: t).count i : ℤ) = (t.count i : ℤ) + if i = a then 1 else 0 :=
        fun i _ => count_cons_int i a t
      rw [Finset.sum_congr rfl hstep, Finset.sum_add_distrib, ih ht,
        Finset.sum_ite_eq' (Finset.range 10) a (fun _ => (1 : ℤ)),
        if_pos (Finset.mem_range.mpr ha)]
      push_cast [List.length_cons]
      ring

/-- Consistency invariant of the rolling window: ten counts, bounded
FIFO, digit entries, counts matching frequencies. -/
def RollingInv (ws : ℕ) (s : RollingState) : Prop :=
  s.counts.length = 10 ∧ s.window.length ≤ ws ∧
    (∀ d ∈ s.window, d < 10) ∧
    ∀ i < 10, s.counts.getD i 0 = (s.window.count i : ℤ)

/-- Reading a constant list always yields the constant. -/
theorem getD_replicate_self {α : Type} (x : α) : ∀ (n i : ℕ),
    (List.replicate n x).getD i x = x
  | 0, _ => by simp
  | _ + 1, 0 => by simp [List.replicate]
  | n + 1, i + 1 => by
      simp only [List.replicate, List.getD_cons_succ]
      exact getD_replicate_self x n i

theorem rollingInv_reset (ws : ℕ) : RollingInv ws resetRolling := by
  refine ⟨by simp [resetRolling], by simp [resetRolling], by simp [resetRolling], ?_⟩
  intro i hi
  show (List.replicate 10 (0 : ℤ)).getD i 0 = _
  rw [getD_replicate_self]
  simp [resetRolling]

theorem rollingInv_push (ws : ℕ) (s : RollingState) (d : ℕ)
    (hinv : RollingInv ws s) (hd : d < 10) : RollingInv ws (pushDigit ws s d) := by
  obtain ⟨hlen, hle, hmem, hcnt⟩ := hinv
  have hmemw : ∀ e ∈ s.window ++ [d], e < 10 := by
    intro e he
    rcases List.mem_append.mp he with h1 | h1
    · exact hmem e h1
    · simp at h1
      omega
  have hnext : ∀ i < 10,
      (s.counts.set d (s.counts.getD d 0 + 1)).getD i 0 =
        ((s.window ++ [d]).count i : ℤ) := by
    intro i hi
    rw [getD_set_eq_ite, List.count_append]
    by_cases hid : i = d
    · rw [if_pos ⟨hid, by omega⟩, hcnt d hd, hid]
      have hone : List.count d [d] = 1 := by
        rw [List.count_cons]
        simp
      rw [hone]
      push_cast
      ring
    · rw [if_neg (by tauto), hcnt i hi]
      have hz : [d].count i = 0 := by
        have hb : (d == i) = false := by
          rw [beq_eq_false_iff_ne]
          omega
        rw [List.count_cons, List.count_nil, hb]
        simp
      rw [hz]
      push_cast
      ring
  have hnextlen : (s.counts.set d (s.counts.getD d 0 + 1)).length = 10 := by
    simp [hlen]
  unfold pushDigit
  by_cases hover : ws < (s.window ++ [d]).length
  · rw [if_pos hover]
    rcases hww : s.window ++ [d] with _ | ⟨c, t⟩
    · exact absurd hww (by simp)
    · have hc10 : c < 10 := hmemw c (by rw [hww]; exact List.mem_cons_self c t)
      have hlen2 : t.length = s.window.length := by
        have h3 : (s.window ++ [d]).length = s.window.length + 1 := by simp
        rw [hww] at h3
        simp at h3
        omega
      simp only [List.tail_cons, List.headD_cons]
      refine ⟨?_, ?_, ?_, ?_⟩
      · show ((s.counts.set d (s.counts.getD d 0 + 1)).set c _).length = 10
        simp [hlen]
      · show t.length ≤ ws
        omega
      · intro e he
        exact hmemw e (by rw [hww]; exact List.mem_cons_of_mem c he)
      · intro i hi
        show ((s.counts.set d (s.counts.getD d 0 + 1)).set c _).getD i 0 = (t.count i : ℤ)
        rw [getD_set_eq_ite]
        have h1 := hnext i hi
        have h1c := hnext c hc10
        rw [hww] at h1 h1c
        by_cases hic : i = c
        · rw [if_pos ⟨hic, by rw [hnextlen]; omega⟩, h1c, count_cons_int c c t]
          subst hic
          simp
        · rw [if_neg (by tauto), h1, count_cons_int i c t, if_neg hic]
          ring
  · rw [if_neg hover]
    refine ⟨?_, ?_, hmemw, hnext⟩
    · show (s.counts.set d (s.counts.getD d 0 + 1)).length = 10
      exact hnextlen
    · show (s.window ++ [d]).length ≤ ws
      exact Nat.not_lt.mp hover

theorem rollingInv_foldl (ws : ℕ) (ds : List ℕ) :
    ∀ s : RollingState, RollingInv ws s → (∀ d ∈ ds, d < 10) →
      RollingInv ws (ds.foldl (pushDigit ws) s) := by
  induction ds with
  | nil => intro s hs _; exact hs
  | cons a t ih =>
      intro s hs hmem
      have ha : a < 10 := hmem a (by simp)
      have ht : ∀ d ∈ t, d < 10 := fun d hd => hmem d (by simp [hd])
      exact ih (pushDigit ws s a) (rollingInv_push ws s a hs ha) ht

/-- C1: starting from the reset state, after any sequence of digit
pushes the histogram counts sum to the FIFO length, the FIFO length is
at most windowSize, every histogram count is non-negative, and each
count equals the exact frequency of that digit in the FIFO. -/
theorem rollingWindow_invariant (ws : ℕ) (ds : List ℕ) (hds : ∀ d ∈ ds, d < 10) :
    (ds.foldl (pushDigit ws) resetRolling).counts.sum =
        ((ds.foldl (pushDigit ws) resetRolling).window.length : ℤ) ∧
      (ds.foldl (pushDigit ws) resetRolling).window.length ≤ ws ∧
      (∀ i, 0 ≤ (ds.foldl (pushDigit ws) resetRolling).counts.getD i 0) ∧
      ∀ i < 10, (ds.foldl (pushDigit ws) resetRolling).counts.getD i 0 =
        ((ds.foldl (pushDigit ws) resetRolling).window.count i : ℤ) := by
  obtain ⟨hlen, hle, hmem, hcnt⟩ :=
    rollingInv_foldl ws ds resetRolling (rollingInv_reset ws) hds
  refine ⟨?_, hle, ?_, hcnt⟩
  · rw [sum_eq_sum_getD, hlen, Finset.sum_congr rfl (fun i hi => hcnt i (Finset.mem_range.mp hi))]
    exact sum_counts_eq_length _ hmem
  · intro i
    by_cases hi : i < 10
    · rw [hcnt i hi]
      positivity
    · rw [List.getD_eq_default]
      omega

/-- Counterexample to C4 as stated: at the finite quote 1 and
pipSize 101 (a non-negative integer), toFixed throws a RangeError that
getLastDigit does not catch, so the extractor does not return a digit
in [0,9] - the exception escapes (modelled as none). -/
theorem getLastDigit_rangeError_counterexample :
    getLastDigit (JSNumber.num 1) 101 = none := rfl

/-- C4 amended: for every quote value (finite or not) and every
pipSize of at most 100, the digit extractor raises no exception and
returns an integer in the range zero to nine; whenever the last
character of the fixed-format string does not parse to a finite number
the deliberate fallback value 0 is returned.  For pipSize above 100
the RangeError of toFixed escapes. -/
theorem getLastDigit_range_fallback (quote : JSNumber) (pip : ℕ)
    (hpip : pip ≤ 100) :
    (∃ d, getLastDigit quote pip = some d ∧ d ≤ 9) ∧
      ∀ ch, toFixedLastChar quote pip = some ch → numberOfDigitChar ch = none →
        getLastDigit quote pip = some 0 := by
  obtain ⟨ch0, hch⟩ : ∃ ch0, toFixedLastChar quote pip = some ch0 := by
    unfold toFixedLastChar
    rw [if_neg (by omega)]
    exact ⟨_, rfl⟩
  constructor
  · rcases h : numberOfDigitChar ch0 with _ | d
    · exact ⟨0, by simp [getLastDigit, hch, h], by omega⟩
    · have hd : d ≤ 9 := by
        unfold numberOfDigitChar at h
        split at h
        · rename_i hc
          injection h with h2
          omega
        · exact absurd h (by simp)
      exact ⟨d, by simp [getLastDigit, hch, h], hd⟩
  · intro ch h1 h2
    rw [hch] at h1
    injection h1 with h1e
    subst h1e
    simp [getLastDigit, hch, h2]

/-- Witness for the C4 amended claim at the NaN quote with pipSize 2:
a digit in range is returned, and the fallback path returns 0. -/
theorem getLastDigit_range_fallback_witness :
    (∃ d, getLastDigit JSNumber.nan 2 = some d ∧ d ≤ 9) ∧
      ∀ ch, toFixedLastChar JSNumber.nan 2 = some ch →
        numberOfDigitChar ch = none → getLastDigit JSNumber.nan 2 = some 0 :=
  getLastDigit_range_fallback JSNumber.nan 2 (by omega)

/-- Witness for C1 with window size 2 and the push sequence 3, 7, 3. -/
theorem rollingWindow_invariant_witness :
    ([3, 7, 3].foldl (pushDigit 2) resetRolling).counts.sum =
        ((([3, 7, 3].foldl (pushDigit 2) resetRolling)).window.length : ℤ) ∧
      ([3, 7, 3].foldl (pushDigit 2) resetRolling).window.length ≤ 2 ∧
      (∀ i, 0 ≤ ([3, 7, 3].foldl (pushDigit 2) resetRolling).counts.getD i 0) ∧
      ∀ i < 10, ([3, 7, 3].foldl (pushDigit 2) resetRolling).counts.getD i 0 =
        ((([3, 7, 3].foldl (pushDigit 2) resetRolling)).window.count i : ℤ) :=
  rollingWindow_invariant 2 [3, 7, 3] (by decide)

/- ------------------------------------------------------------------
   Chi-square evaluator and incomplete gamma helpers
   (gammp, gammq, chiSquareTest, App.jsx lines 54-128)
------------------------------------------------------------------- -/

/-- Iteration cap shared by the series and continued fraction loops. -/
def ITMAX : ℕ := 200

/-- Relative error tolerance of the gamma loops, three times ten to the
minus seven. -/
def EPS : ℚ := 3 / 10 ^ 7

/-- Underflow guard of the continued fraction, ten to the minus
thirty. -/
def FPMIN : ℚ := 1 / 10 ^ 30

/-- Bounded loop: apply the step, stop as soon as the stop predicate
holds on the new state or the fuel runs out; the stop predicate is
never consulted on the initial state, matching a loop whose break test
sits at the end of the body. -/
def loopUntil {σ : Type} (step : σ → σ) (stop : σ → Bool) : ℕ → σ → σ
  | 0, s => s
  | n + 1, s =>
      let t := step s
      if stop t then t else loopUntil step stop n t

/-- State of the series loop of gammp. -/
structure GserState where
  ap : ℚ
  sum : ℚ
  del : ℚ
deriving DecidableEq

/-- One iteration of the series loop of gammp. -/
def gserStep (x : ℚ) (s : GserState) : GserState :=
  let ap := s.ap + 1
  let del := s.del * (x / ap)
  ⟨ap, s.sum + del, del⟩

/-- Break test of the series loop. -/
def gserStop (s : GserState) : Bool := decide (|s.del| < |s.sum| * EPS)

/-- Initial state of the series loop. -/
def gserInit (a : ℚ) : GserState := ⟨a, 1 / a, 1 / a⟩

/-- Rational part of the series branch of gammp: the truncated sum. -/
def gser (a x : ℚ) : ℚ := (loopUntil (gserStep x) gserStop ITMAX (gserInit a)).sum

/-- State of the continued fraction loop of gammq. -/
structure GcfState where
  i : ℕ
  b : ℚ
  c : ℚ
  d : ℚ
  h : ℚ
deriving DecidableEq

/-- One iteration of the continued fraction loop of gammq, with the
two FPMIN underflow clamps of the source. -/
def gcfStep (a x : ℚ) (s : GcfState) : GcfState :=
  let i := s.i + 1
  let an : ℚ := -(i : ℚ) * ((i : ℚ) - a)
  let b := s.b + 2
  let d0 := an * s.d + b
  let d1 := if |d0| < FPMIN then FPMIN else d0
  let c0 := b + an / s.c
  let c1 := if |c0| < FPMIN then FPMIN else c0
  let d2 := 1 / d1
  ⟨i, b, c1, d2, s.h * (d2 * c1)⟩

/-- Break test of the continued fraction loop: the last factor applied
to h is the product of the stored d and c fields. -/
def gcfStop (s : GcfState) : Bool := decide (|s.d * s.c - 1| < EPS)

/-- Initial state of the continued fraction loop. -/
def gcfInit (a x : ℚ) : GcfState :=
  ⟨0, x + 1 - a, 1 / FPMIN, 1 / (x + 1 - a), 1 / (x + 1 - a)⟩

/-- Rational part of gammq: the converged continued fraction value h. -/
def gcf (a x : ℚ) : ℚ := (loopUntil (gcfStep a x) gcfStop ITMAX (gcfInit a x)).h

/-- gammq from App.jsx, the regularized upper incomplete gamma.  The
parameter ef stands for the transcendental factor
exp(-x + a log x - gammaln a); the source computes it with Math.exp,
Math.log and the Lanczos gammaln, none of which has an exact rational
value.  The NaN result of the domain check is modelled as none. -/
def gammq (ef : ℚ → ℚ → ℚ) (a x : ℚ) : Option ℚ :=
  if x < 0 ∨ a ≤ 0 then none else some (gcf a x * ef a x)

/-- gammp from App.jsx, the regularized lower incomplete gamma: series
branch when x < a + 1, otherwise one minus the continued fraction
evaluation of gammq. -/
def gammp (ef : ℚ → ℚ → ℚ) (a x : ℚ) : Option ℚ :=
  if x < 0 ∨ a ≤ 0 then none
  else if x = 0 then some 0
  else if x < a + 1 then some (gser a x * ef a x)
  else (gammq ef a x).map (fun q => 1 - q)

/-- Result record of chiSquareTest. -/
structure ChiResult where
  chi2 : ℚ
  df : ℕ
  p : Option ℚ
deriving DecidableEq

/-- chiSquareTest from App.jsx over a list of category counts and the
caller-supplied total. -/
def chiSquareTest (ef : ℚ → ℚ → ℚ) (counts : List ℚ) (total : ℚ) : ChiResult :=
  let k := counts.length
  let df := k - 1
  if total ≤ 0 then ⟨0, df, some 1⟩
  else
    let expected := total / (k : ℚ)
    let chi2 :=
      (List.range k).foldl
        (fun acc i =>
          acc + (counts.getD i 0 - expected) * (counts.getD i 0 - expected) / expected)
        0
    ⟨chi2, df, (gammp ef ((df : ℚ) / 2) (chi2 / 2)).map (fun c => 1 - c)⟩

/-- Every run of loopUntil applies the step some number N of times
bounded by the fuel, never past the first state satisfying the stop
predicate, and runs out of fuel only when no earlier state satisfied
it. -/
theorem loopUntil_spec {σ : Type} (step : σ → σ) (stop : σ → Bool) :
    ∀ (fuel : ℕ) (s : σ),
      ∃ N, N ≤ fuel ∧ (N = 0 → fuel = 0) ∧
        loopUntil step stop fuel s = step^[N] s ∧
        (∀ m, 1 ≤ m → m < N → stop (step^[m] s) = false) ∧
        (stop (step^[N] s) = true ∨ N = fuel) := by
  intro fuel
  induction fuel with
  | zero =>
      intro s
      exact ⟨0, le_refl 0, fun _ => rfl, rfl, fun m h1 h2 => absurd h2 (by omega),
        Or.inr rfl⟩
  | succ n ih =>
      intro s
      by_cases hs : stop (step s) = true
      · refine ⟨1, by omega, by omega, ?_, fun m h1 h2 => absurd h2 (by omega), Or.inl ?_⟩
        · simp [loopUntil, hs]
        · simpa using hs
      · obtain ⟨N, hN1, hN0, hres, hmin, hfin⟩ := ih (step s)
        have hsf : stop (step s) = false := by
          rcases Bool.dichotomy (stop (step s)) with h | h
          · exact h
          · exact absurd h hs
        refine ⟨N + 1, by omega, by omega, ?_, ?_, ?_⟩
        · show loopUntil step stop (n + 1) s = _
          rw [Function.iterate_succ_apply]
          rw [← hres]
          simp [loopUntil, hsf]
        · intro m h1 h2
          rcases Nat.exists_eq_add_of_le h1 with ⟨m2, hm2⟩
          cases m2 with
          | zero =>
              rw [hm2]
              simpa using hsf
          | succ m3 =>
              have : step^[m] s = step^[m3 + 1] (step s) := by
                rw [hm2, Nat.add_comm 1 (m3 + 1), Function.iterate_add_apply]
                simp
              rw [this]
              exact hmin (m3 + 1) (by omega) (by omega)
        · rcases hfin with h | h
          · left
            rw [Function.iterate_succ_apply]
            exact h
          · right
            omega

/-- Terms of the power series of the lower incomplete gamma as the
source generates them: the first term is 1/a and each later term
multiplies by x over the incremented ap. -/
def gterm (a x : ℚ) : ℕ → ℚ
  | 0 => 1 / a
  | n + 1 => gterm a x n * (x / (a + ((n : ℚ) + 1)))

/-- Sum of the first n + 1 series terms. -/
def gsum (a x : ℚ) (n : ℕ) : ℚ := ∑ k in Finset.range (n + 1), gterm a x k

/-- The n-fold iterate of the series step from the initial state holds
ap = a + n, the running sum of the first n + 1 terms, and the n-th
term as del. -/
theorem gserStep_iterate (a x : ℚ) (n : ℕ) :
    (gserStep x)^[n] (gserInit a) = ⟨a + (n : ℚ), gsum a x n, gterm a x n⟩ := by
  induction n with
  | zero =>
      simp [gserInit, gsum, gterm]
  | succ n ih =>
      rw [Function.iterate_succ_apply', ih]
      have h2 : gterm a x n * (x / (a + (n : ℚ) + 1)) = gterm a x (n + 1) := by
        rw [show gterm a x (n + 1) = gterm a x n * (x / (a + ((n : ℚ) + 1))) from rfl]
        ring
      have h1 : gsum a x n + gterm a x (n + 1) = gsum a x (n + 1) := by
        unfold gsum
        exact (Finset.sum_range_succ (gterm a x) (n + 1)).symm
      simp only [gserStep, GserState.mk.injEq]
      refine ⟨by push_cast; ring, ?_, ?_⟩
      · rw [h2, h1]
      · rw [h2]

/-- The series terms in closed form: x to the n over the product of
a + k for k up to n. -/
theorem gterm_closed_form (a x : ℚ) (ha : 0 < a) (n : ℕ) :
    gterm a x n = x ^ n / ∏ k in Finset.range (n + 1), (a + (k : ℚ)) := by
  induction n with
  | zero =>
      simp [gterm]
  | succ n ih =>
      have hpos : ∀ k : ℕ, (0 : ℚ) < a + (k : ℚ) := by
        intro k
        have : (0 : ℚ) ≤ (k : ℚ) := by positivity
        linarith
      have hprod : (0 : ℚ) < ∏ k in Finset.range (n + 1), (a + (k : ℚ)) :=
        Finset.prod_pos fun k _ => hpos k
      have hne1 : (∏ k in Finset.range (n + 1), (a + (k : ℚ))) ≠ 0 := ne_of_gt hprod
      have hne2 : a + ((n : ℚ) + 1) ≠ 0 := by
        have := hpos (n + 1)
        push_cast at this
        linarith
      have hexp : (∏ k in Finset.range (n + 1 + 1), (a + (k : ℚ))) =
          (∏ k in Finset.range (n + 1), (a + (k : ℚ))) * (a + ((n : ℚ) + 1)) := by
        rw [Finset.prod_range_succ]
        push_cast
        ring
      unfold gterm
      rw [ih, hexp]
      field_simp
      ring

/-- Folding addition of mapped terms over a list equals the initial
value plus the sum of the mapped list. -/
theorem foldl_add_eq_sum (f : ℕ → ℚ) : ∀ (l : List ℕ) (a0 : ℚ),
    l.foldl (fun acc i => acc + f i) a0 = a0 + (l.map f).sum
  | [], a0 => by simp
  | b :: t, a0 => by
      simp only [List.foldl_cons, List.map_cons, List.sum_cons]
      rw [foldl_add_eq_sum f t (a0 + f b)]
      ring

/-- Sum over List.range agrees with the Finset range sum. -/
theorem sum_map_range_eq (f : ℕ → ℚ) (n : ℕ) :
    ((List.range n).map f).sum = ∑ i in Finset.range n, f i := by
  induction n with
  | zero => simp
  | succ n ih =>
      rw [List.range_succ, List.map_append, List.sum_append, Finset.sum_range_succ, ih]
      simp

/-- C2: with ten categories, a non-positive total yields statistic 0,
degrees of freedom 9 and p-value 1; a positive total yields degrees of
freedom 9 and the statistic equal to the sum over the ten categories of
the squared deviation from total over ten, divided by total over ten;
and the perfectly uniform histogram with total 100 and each category 10
yields statistic 0 and p-value 1 exactly. -/
theorem chiSquareTest_spec (ef : ℚ → ℚ → ℚ) (counts : List ℚ) (total : ℚ)
    (hlen : counts.length = 10) :
    (total ≤ 0 → chiSquareTest ef counts total = ⟨0, 9, some 1⟩) ∧
      (0 < total →
        (chiSquareTest ef counts total).df = 9 ∧
          (chiSquareTest ef counts total).chi2 =
            ∑ i in Finset.range 10,
              (counts.getD i 0 - total / 10) ^ 2 / (total / 10)) ∧
      chiSquareTest ef (List.replicate 10 10) 100 = ⟨0, 9, some 1⟩ := by
  refine ⟨?_, ?_, ?_⟩
  · intro h
    simp only [chiSquareTest, hlen, if_pos h]
  · intro h
    have hnot : ¬ total ≤ 0 := not_le.mpr h
    constructor
    · simp only [chiSquareTest, hlen, if_neg hnot]
    · simp only [chiSquareTest, hlen, if_neg hnot]
      rw [foldl_add_eq_sum
        (fun i => (counts.getD i 0 - total / (10 : ℕ)) * (counts.getD i 0 - total / (10 : ℕ))
          / (total / (10 : ℕ))) (List.range 10) 0]
      rw [sum_map_range_eq]
      rw [zero_add]
      refine Finset.sum_congr rfl fun i _ => ?_
      push_cast
      ring
  · have h100 : ¬ (100 : ℚ) ≤ 0 := by norm_num
    simp only [chiSquareTest, List.length_replicate, if_neg h100]
    have hfold :
        (List.range 10).foldl
          (fun acc i =>
            acc + ((List.replicate 10 (10 : ℚ)).getD i 0 - 100 / (10 : ℕ)) *
              ((List.replicate 10 (10 : ℚ)).getD i 0 - 100 / (10 : ℕ)) / (100 / (10 : ℕ)))
          0 = 0 := by
      rw [foldl_add_eq_sum, sum_map_range_eq, zero_add]
      refine Finset.sum_eq_zero fun i hi => ?_
      have hrep : (List.replicate 10 (10 : ℚ)).getD i 0 = 10 := by
        have hi2 := Finset.mem_range.mp hi
        interval_cases i <;> rfl
      rw [hrep]
      norm_num
    rw [hfold]
    have hg : gammp ef (((10 - 1 : ℕ) : ℚ) / 2) ((0 : ℚ) / 2) = some 0 := by
      unfold gammp
      have hc1 : ¬ ((0 : ℚ) / 2 < 0 ∨ (((10 - 1 : ℕ) : ℚ) / 2) ≤ 0) := by
        push_cast
        norm_num
      rw [if_neg hc1, if_pos (by norm_num : (0 : ℚ) / 2 = 0)]
    rw [hg]
    simp only [Option.map_some']
    norm_num

/-- Witness for C2 with a constant transcendental factor, a negative
total on one histogram, and the uniform histogram. -/
theorem chiSquareTest_spec_witness :
    chiSquareTest (fun _ _ => 0) (List.replicate 10 3) (-1) = ⟨0, 9, some 1⟩ ∧
      chiSquareTest (fun _ _ => 0) (List.replicate 10 10) 100 = ⟨0, 9, some 1⟩ :=
  ⟨(chiSquareTest_spec (fun _ _ => 0) (List.replicate 10 3) (-1) (by simp)).1
      (by norm_num),
   (chiSquareTest_spec (fun _ _ => 0) (List.replicate 10 3) (-1) (by simp)).2.2⟩

/-- C3: on a ten-category histogram with positive total the p-value is
one minus gammp at 9/2 and half the statistic, where gammp follows the
dual-algorithm split: for 0 < x < a + 1 it returns the power series
partial sum (terms x to the n over the ascending products of a) times
the transcendental factor, the number N of iterations being at most the
cap 200 and stopping at the first index meeting the relative-error
tolerance EPS (three times ten to the minus seven), the cap applying
only when no earlier index met it; for x at least a + 1 it returns one
minus the continued fraction value of gammq, whose loop obeys the same
stopping rule, testing EPS against the distance of the last applied
factor from one. -/
theorem pvalue_gamma_algorithm (ef : ℚ → ℚ → ℚ) (counts : List ℚ) (total a x : ℚ)
    (hlen : counts.length = 10) :
    (0 < total →
        (chiSquareTest ef counts total).p =
          (gammp ef (9 / 2) ((chiSquareTest ef counts total).chi2 / 2)).map
            (fun c => 1 - c)) ∧
      (0 < a → 0 < x → x < a + 1 →
        ∃ N, 1 ≤ N ∧ N ≤ 200 ∧
          gammp ef a x = some (gsum a x N * ef a x) ∧
          (|gterm a x N| < |gsum a x N| * EPS ∨ N = 200) ∧
          (∀ m, 1 ≤ m → m < N → ¬ |gterm a x m| < |gsum a x m| * EPS) ∧
          gterm a x N = x ^ N / ∏ k in Finset.range (N + 1), (a + (k : ℚ))) ∧
      (0 < a → a + 1 ≤ x →
        gammp ef a x = some (1 - gcf a x * ef a x) ∧
        ∃ N, 1 ≤ N ∧ N ≤ 200 ∧
          gcf a x = ((gcfStep a x)^[N] (gcfInit a x)).h ∧
          (|((gcfStep a x)^[N] (gcfInit a x)).d * ((gcfStep a x)^[N] (gcfInit a x)).c - 1|
              < EPS ∨ N = 200) ∧
          ∀ m, 1 ≤ m → m < N →
            ¬ |((gcfStep a x)^[m] (gcfInit a x)).d * ((gcfStep a x)^[m] (gcfInit a x)).c - 1|
                < EPS) := by
  refine ⟨?_, ?_, ?_⟩
  · intro h
    have hnot : ¬ total ≤ 0 := not_le.mpr h
    simp only [chiSquareTest, hlen, if_neg hnot]
    norm_num
  · intro ha hx hlt
    obtain ⟨N, hNle, hN0, hres, hmin, hfin⟩ :=
      loopUntil_spec (gserStep x) gserStop ITMAX (gserInit a)
    have hit : ITMAX = 200 := rfl
    have hN1 : 1 ≤ N := by
      rcases Nat.eq_zero_or_pos N with h0 | h1
      · have h2 := hN0 h0
        rw [hit] at h2
        omega
      · exact h1
    have hgp : gammp ef a x = some (gser a x * ef a x) := by
      unfold gammp
      rw [if_neg (by push_neg; constructor <;> linarith), if_neg (by linarith),
        if_pos hlt]
    have hgser : gser a x = gsum a x N := by
      unfold gser
      rw [hres, gserStep_iterate]
    refine ⟨N, hN1, by omega, by rw [hgp, hgser], ?_, ?_,
      gterm_closed_form a x ha N⟩
    · rcases hfin with h | h
      · left
        rw [gserStep_iterate] at h
        unfold gserStop at h
        simpa using h
      · right
        omega
    · intro m h1 h2
      have h3 := hmin m h1 h2
      rw [gserStep_iterate] at h3
      unfold gserStop at h3
      simpa using h3
  · intro ha hxge
    have hx0 : (0 : ℚ) < x := by linarith
    have hgq : gammq ef a x = some (gcf a x * ef a x) := by
      unfold gammq
      rw [if_neg (by push_neg; constructor <;> linarith)]
    have hgp : gammp ef a x = some (1 - gcf a x * ef a x) := by
      unfold gammp
      rw [if_neg (by push_neg; constructor <;> linarith), if_neg (by linarith),
        if_neg (by linarith), hgq]
      rfl
    obtain ⟨N, hNle, hN0, hres, hmin, hfin⟩ :=
      loopUntil_spec (gcfStep a x) gcfStop ITMAX (gcfInit a x)
    have hit : ITMAX = 200 := rfl
    have hN1 : 1 ≤ N := by
      rcases Nat.eq_zero_or_pos N with h0 | h1
      · have h2 := hN0 h0
        rw [hit] at h2
        omega
      · exact h1
    have hgcf : gcf a x = ((gcfStep a x)^[N] (gcfInit a x)).h := by
      unfold gcf
      rw [hres]
    refine ⟨hgp, N, hN1, by omega, hgcf, ?_, ?_⟩
    · rcases hfin with h | h
      · left
        unfold gcfStop at h
        simpa using h
      · right
        omega
    · intro m h1 h2
      have h3 := hmin m h1 h2
      unfold gcfStop at h3
      simpa using h3

/-- Witness for C3 at a constant factor, the uniform histogram, and
the concrete gamma arguments a = 9/2 with x = 1 for the series branch
and x = 7 for the continued fraction branch (only one branch has its
guards satisfiable per x, so the witness instantiates the theorem
twice). -/
theorem pvalue_gamma_algorithm_witness :
    ((0 : ℚ) < 100 →
        (chiSquareTest (fun _ _ => 1) (List.replicate 10 (10 : ℚ)) 100).p =
          (gammp (fun _ _ => 1) (9 / 2)
              ((chiSquareTest (fun _ _ => 1) (List.replicate 10 (10 : ℚ)) 100).chi2 / 2)).map
            (fun c => 1 - c)) ∧
      ((0 : ℚ) < 9 / 2 → (0 : ℚ) < 1 → (1 : ℚ) < 9 / 2 + 1 →
        ∃ N, 1 ≤ N ∧ N ≤ 200 ∧
          gammp (fun _ _ => 1) (9 / 2) 1 = some (gsum (9 / 2) 1 N * 1) ∧
          (|gterm (9 / 2) 1 N| < |gsum (9 / 2) 1 N| * EPS ∨ N = 200) ∧
          (∀ m, 1 ≤ m → m < N → ¬ |gterm (9 / 2) 1 m| < |gsum (9 / 2) 1 m| * EPS) ∧
          gterm (9 / 2) 1 N = 1 ^ N / ∏ k in Finset.range (N + 1), (9 / 2 + (k : ℚ))) ∧
      ((0 : ℚ) < 9 / 2 → (9 : ℚ) / 2 + 1 ≤ 7 →
        gammp (fun _ _ => 1) (9 / 2) 7 = some (1 - gcf (9 / 2) 7 * 1) ∧
        ∃ N, 1 ≤ N ∧ N ≤ 200 ∧
          gcf (9 / 2) 7 = ((gcfStep (9 / 2) 7)^[N] (gcfInit (9 / 2) 7)).h ∧
          (|((gcfStep (9 / 2) 7)^[N] (gcfInit (9 / 2) 7)).d *
                ((gcfStep (9 / 2) 7)^[N] (gcfInit (9 / 2) 7)).c - 1| < EPS ∨ N = 200) ∧
          ∀ m, 1 ≤ m → m < N →
            ¬ |((gcfStep (9 / 2) 7)^[m] (gcfInit (9 / 2) 7)).d *
                  ((gcfStep (9 / 2) 7)^[m] (gcfInit (9 / 2) 7)).c - 1| < EPS) :=
  ⟨(pvalue_gamma_algorithm (fun _ _ => 1) (List.replicate 10 (10 : ℚ)) 100 (9 / 2) 1
      (by simp)).1,
   (pvalue_gamma_algorithm (fun _ _ => 1) (List.replicate 10 (10 : ℚ)) 100 (9 / 2) 1
      (by simp)).2.1,
   (pvalue_gamma_algorithm (fun _ _ => 1) (List.replicate 10 (10 : ℚ)) 100 (9 / 2) 7
      (by simp)).2.2⟩

/- ------------------------------------------------------------------
   Alert engine (the alerts useEffect, App.jsx lines 182-244)
------------------------------------------------------------------- -/

/-- Entry of the alert log and banner.  The source entry also carries
the COMBINED type tag and a formatted message text derived from the
same key and percentages; the key pair and the firing time determine
the behaviour relevant here. -/
structure AlertEntry where
  key : ℕ × ℕ
  time : ℚ
deriving DecidableEq

/-- Debouncing state lastAlertRef: the key of the last fired alert
(none models the initial empty-string key), its firing time in
milliseconds, and the active flag. -/
structure AlertState where
  key : Option (ℕ × ℕ)
  atMs : ℚ
  active : Bool
deriving DecidableEq

/-- Initial alert state of the source: empty key, time 0, inactive. -/
def initAlertState : AlertState := ⟨none, 0, false⟩

/-- Alert configuration state of the App component. -/
structure AlertConfig where
  alertsEnabled : Bool
  alertDigits : List ℕ
  highThreshold : ℚ
  pairThreshold : ℚ
  cooldownSec : ℚ
deriving DecidableEq

/-- Output of one evaluation of the alerts effect: the new debouncing
state, banner, log, and the emitted event if the setters fired. -/
structure AlertsOut where
  state : AlertState
  banner : Option AlertEntry
  log : List AlertEntry
  emitted : Option AlertEntry
deriving DecidableEq

/-- Percentage distribution derived from the counts, as computed in
the effect: each count over the total times 100, or 0 when the total
is not positive. -/
def probsOf (counts : List ℤ) : List ℚ :=
  counts.map (fun c => if 0 < counts.sum then (c : ℚ) / (counts.sum : ℚ) * 100 else 0)

/-- The argmax scan of the effect: start at digit 0 and walk indices 1
to 9, replacing the champion only on a strictly greater value. -/
def topDigitOf (probs : List ℚ) : ℕ :=
  (List.range' 1 9).foldl
    (fun top i => if probs.getD top 0 < probs.getD i 0 then i else top) 0

/-- The other digit of the configured focus pair. -/
def otherFocus (cfg : AlertConfig) (top : ℕ) : ℕ :=
  if top = cfg.alertDigits.getD 0 0 then cfg.alertDigits.getD 1 0
  else cfg.alertDigits.getD 0 0

/-- The compound firing condition: the percentage of the top digit is
at least the high threshold and the percentage of the other focus
digit is at least the pair threshold.  A read outside the array is the
JavaScript undefined, whose comparisons are false, modelled by the
none branch. -/
def alertOk (cfg : AlertConfig) (counts : List ℤ) : Bool :=
  let probs := probsOf counts
  let top := topDigitOf probs
  match probs.get? top, probs.get? (otherFocus cfg top) with
  | some tv, some ov =>
      decide (cfg.highThreshold ≤ tv) && decide (cfg.pairThreshold ≤ ov)
  | _, _ => false

/-- One evaluation of the alerts effect of App.jsx: early exits when
alerts are disabled, the total is below 20, or the configured digit
list does not have exactly two entries; deactivation when the top
digit is outside the pair or the compound condition fails; otherwise
fire with cooldown suppression for the same active key. -/
def evalAlerts (cfg : AlertConfig) (counts : List ℤ) (now : ℚ)
    (st : AlertState) (log : List AlertEntry) (banner : Option AlertEntry) :
    AlertsOut :=
  let unchanged : AlertsOut := ⟨st, banner, log, none⟩
  if cfg.alertsEnabled = false then unchanged
  else if counts.sum < 20 then unchanged
  else if cfg.alertDigits.length ≠ 2 then unchanged
  else
    let top := topDigitOf (probsOf counts)
    if top ≠ cfg.alertDigits.getD 0 0 ∧ top ≠ cfg.alertDigits.getD 1 0 then
      ⟨{ st with active := false }, banner, log, none⟩
    else if alertOk cfg counts then
      let key := (top, otherFocus cfg top)
      if st.key = some key ∧ st.active = true ∧ now - st.atMs < cfg.cooldownSec * 1000
      then unchanged
      else
        let entry : AlertEntry := ⟨key, now⟩
        ⟨⟨some key, now, true⟩, some entry, (entry :: log).take 50, some entry⟩
    else
      ⟨{ st with active := false }, banner, log, none⟩

/-- The argmax fold invariant: walking indices i to i + k - 1 from a
champion below i that dominates all indices below i (strictly so below
itself) yields a champion below i + k with the same properties at
bound i + k. -/
theorem topDigit_fold_invariant (probs : List ℚ) : ∀ (k i t : ℕ),
    t < i →
    (∀ j < i, probs.getD j 0 ≤ probs.getD t 0) →
    (∀ j < t, probs.getD j 0 < probs.getD t 0) →
    ((List.range' i k).foldl
        (fun top j => if probs.getD top 0 < probs.getD j 0 then j else top) t) < i + k ∧
      (∀ j < i + k, probs.getD j 0 ≤
        probs.getD ((List.range' i k).foldl
          (fun top j => if probs.getD top 0 < probs.getD j 0 then j else top) t) 0) ∧
      (∀ j < (List.range' i k).foldl
          (fun top j => if probs.getD top 0 < probs.getD j 0 then j else top) t,
        probs.getD j 0 <
          probs.getD ((List.range' i k).foldl
            (fun top j => if probs.getD top 0 < probs.getD j 0 then j else top) t) 0) := by
  intro k
  induction k with
  | zero =>
      intro i t ht hle hlt
      simp only [List.range', List.foldl_nil]
      exact ⟨by omega, fun j hj => hle j (by omega), hlt⟩
  | succ k ih =>
      intro i t ht hle hlt
      rw [show List.range' i (k + 1) = i :: List.range' (i + 1) k from rfl]
      rw [List.foldl_cons]
      by_cases hcase : probs.getD t 0 < probs.getD i 0
      · rw [if_pos hcase]
        have h1 : ∀ j < i + 1, probs.getD j 0 ≤ probs.getD i 0 := by
          intro j hj
          rcases Nat.lt_succ_iff_lt_or_eq.mp hj with h | h
          · exact le_of_lt (lt_of_le_of_lt (hle j h) hcase)
          · rw [h]
        have h2 : ∀ j < i, probs.getD j 0 < probs.getD i 0 := by
          intro j hj
          exact lt_of_le_of_lt (hle j hj) hcase
        have := ih (i + 1) i (by omega) h1 h2
        refine ⟨by omega, ?_, this.2.2⟩
        intro j hj
        exact this.2.1 j (by omega)
      · rw [if_neg hcase]
        have h1 : ∀ j < i + 1, probs.getD j 0 ≤ probs.getD t 0 := by
          intro j hj
          rcases Nat.lt_succ_iff_lt_or_eq.mp hj with h | h
          · exact hle j h
          · rw [h]
            exact not_lt.mp hcase
        have := ih (i + 1) t (by omega) h1 hlt
        refine ⟨by omega, ?_, this.2.2⟩
        intro j hj
        exact this.2.1 j (by omega)

/-- The top digit returned by the scan is below ten, dominates every
index below ten, and strictly dominates every index below itself, so
ties are broken towards the lowest index. -/
theorem topDigitOf_spec (probs : List ℚ) :
    topDigitOf probs < 10 ∧
      (∀ j < 10, probs.getD j 0 ≤ probs.getD (topDigitOf probs) 0) ∧
      ∀ j < topDigitOf probs, probs.getD j 0 < probs.getD (topDigitOf probs) 0 := by
  have h := topDigit_fold_invariant probs 9 1 0 (by omega)
    (by intro j hj; interval_cases j; exact le_refl _)
    (by intro j hj; omega)
  exact ⟨h.1, h.2.1, h.2.2⟩

/-- A successful positional read determines getD. -/
theorem getD_eq_of_getQue {l : List ℚ} {i : ℕ} {v : ℚ}
    (h : l.get? i = some v) : l.getD i 0 = v := by
  rw [List.getD_eq_getD_get?, h]
  rfl

/-- A true compound condition forces both threshold comparisons on the
percentage reads. -/
theorem alertOk_thresholds (cfg : AlertConfig) (counts : List ℤ)
    (h : alertOk cfg counts = true) :
    cfg.highThreshold ≤ (probsOf counts).getD (topDigitOf (probsOf counts)) 0 ∧
      cfg.pairThreshold ≤
        (probsOf counts).getD (otherFocus cfg (topDigitOf (probsOf counts))) 0 := by
  rcases hg1 : (probsOf counts).get? (topDigitOf (probsOf counts)) with _ | tv
  · simp only [alertOk, hg1] at h
    exact Bool.noConfusion h
  · rcases hg2 : (probsOf counts).get? (otherFocus cfg (topDigitOf (probsOf counts)))
      with _ | ov
    · simp only [alertOk, hg1, hg2] at h
      exact Bool.noConfusion h
    · simp only [alertOk, hg1, hg2, Bool.and_eq_true, decide_eq_true_eq] at h
      rw [getD_eq_of_getQue hg1, getD_eq_of_getQue hg2]
      exact h

/-- Helper: the suppressed evaluation on the fire path leaves every
output unchanged and emits nothing. -/
theorem evalAlerts_suppress (cfg : AlertConfig) (counts : List ℤ) (now : ℚ)
    (st : AlertState) (log : List AlertEntry) (banner : Option AlertEntry)
    (hen : cfg.alertsEnabled = true)
    (htot : ¬ counts.sum < 20)
    (hlen : cfg.alertDigits.length = 2)
    (hin : ¬(topDigitOf (probsOf counts) ≠ cfg.alertDigits.getD 0 0 ∧
        topDigitOf (probsOf counts) ≠ cfg.alertDigits.getD 1 0))
    (hok : alertOk cfg counts = true)
    (hsup : st.key = some (topDigitOf (probsOf counts),
        otherFocus cfg (topDigitOf (probsOf counts))) ∧
      st.active = true ∧ now - st.atMs < cfg.cooldownSec * 1000) :
    evalAlerts cfg counts now st log banner = ⟨st, banner, log, none⟩ := by
  have hen2 : ¬ cfg.alertsEnabled = false := by
    rw [hen]
    simp
  have hlen2 : ¬ cfg.alertDigits.length ≠ 2 := by
    omega
  simp only [evalAlerts, if_neg hen2, if_neg htot, if_neg hlen2, if_neg hin,
    if_pos hok, if_pos hsup]

/-- Helper: the unsuppressed evaluation on the fire path emits the
entry, activates the state at the current time, and prepends the entry
to the log truncated at 50. -/
theorem evalAlerts_fire (cfg : AlertConfig) (counts : List ℤ) (now : ℚ)
    (st : AlertState) (log : List AlertEntry) (banner : Option AlertEntry)
    (hen : cfg.alertsEnabled = true)
    (htot : ¬ counts.sum < 20)
    (hlen : cfg.alertDigits.length = 2)
    (hin : ¬(topDigitOf (probsOf counts) ≠ cfg.alertDigits.getD 0 0 ∧
        topDigitOf (probsOf counts) ≠ cfg.alertDigits.getD 1 0))
    (hok : alertOk cfg counts = true)
    (hsup : ¬(st.key = some (topDigitOf (probsOf counts),
        otherFocus cfg (topDigitOf (probsOf counts))) ∧
      st.active = true ∧ now - st.atMs < cfg.cooldownSec * 1000)) :
    evalAlerts cfg counts now st log banner =
      ⟨⟨some (topDigitOf (probsOf counts),
          otherFocus cfg (topDigitOf (probsOf counts))), now, true⟩,
        some ⟨(topDigitOf (probsOf counts),
          otherFocus cfg (topDigitOf (probsOf counts))), now⟩,
        (AlertEntry.mk (topDigitOf (probsOf counts),
          otherFocus cfg (topDigitOf (probsOf counts))) now :: log).take 50,
        some ⟨(topDigitOf (probsOf counts),
          otherFocus cfg (topDigitOf (probsOf counts))), now⟩⟩ := by
  have hen2 : ¬ cfg.alertsEnabled = false := by
    rw [hen]
    simp
  have hlen2 : ¬ cfg.alertDigits.length ≠ 2 := by
    omega
  simp only [evalAlerts, if_neg hen2, if_neg htot, if_neg hlen2, if_neg hin,
    if_pos hok, if_neg hsup]

/-- C6: whenever an evaluation reaches the fire call with a true
compound condition, it is suppressed exactly when the state already
holds the same key, is active, and fewer than cooldownSec seconds (in
milliseconds) have passed since the last firing; otherwise the event
is emitted, the state becomes active at the current time, and the
entry is prepended to the log truncated at 50.  Consequently a
continuously true condition fires once, is suppressed inside the
cooldown window, and fires again once the cooldown has elapsed. -/
theorem alert_cooldown_spec (cfg : AlertConfig) (counts : List ℤ) (now : ℚ)
    (st : AlertState) (log : List AlertEntry) (banner : Option AlertEntry)
    (hen : cfg.alertsEnabled = true)
    (htot : ¬ counts.sum < 20)
    (hlen : cfg.alertDigits.length = 2)
    (hin : ¬(topDigitOf (probsOf counts) ≠ cfg.alertDigits.getD 0 0 ∧
        topDigitOf (probsOf counts) ≠ cfg.alertDigits.getD 1 0))
    (hok : alertOk cfg counts = true) :
    (st.key = some (topDigitOf (probsOf counts),
          otherFocus cfg (topDigitOf (probsOf counts))) ∧
        st.active = true ∧ now - st.atMs < cfg.cooldownSec * 1000 →
      evalAlerts cfg counts now st log banner = ⟨st, banner, log, none⟩) ∧
      (¬(st.key = some (topDigitOf (probsOf counts),
            otherFocus cfg (topDigitOf (probsOf counts))) ∧
          st.active = true ∧ now - st.atMs < cfg.cooldownSec * 1000) →
        evalAlerts cfg counts now st log banner =
          ⟨⟨some (topDigitOf (probsOf counts),
              otherFocus cfg (topDigitOf (probsOf counts))), now, true⟩,
            some ⟨(topDigitOf (probsOf counts),
              otherFocus cfg (topDigitOf (probsOf counts))), now⟩,
            (AlertEntry.mk (topDigitOf (probsOf counts),
              otherFocus cfg (topDigitOf (probsOf counts))) now :: log).take 50,
            some ⟨(topDigitOf (probsOf counts),
              otherFocus cfg (topDigitOf (probsOf counts))), now⟩⟩) := by
  exact ⟨evalAlerts_suppress cfg counts now st log banner hen htot hlen hin hok,
    evalAlerts_fire cfg counts now st log banner hen htot hlen hin hok⟩

/-- Default alert configuration of the source: enabled, focus pair
8 and 9, high threshold 15, pair threshold 10, cooldown 20 seconds. -/
def cfgS : AlertConfig := ⟨true, [8, 9], 15, 10, 20⟩

/-- A 50-tick histogram with digit 8 at 20 percent and digit 9 at 12
percent, every other digit strictly below 20 percent. -/
def countsS : List ℤ := [9, 9, 9, 7, 0, 0, 0, 0, 10, 6]

/-- Percentage distribution of the 50-tick histogram, computed
exactly. -/
theorem probsOf_countsS :
    probsOf countsS = [18, 18, 18, 14, 0, 0, 0, 0, 20, 12] := by
  norm_num [probsOf, countsS]

/-- Witness for C6: the spec scenario with focus pair (8, 9).  The
first evaluation fires, a second evaluation 5 seconds later with the
same true condition is suppressed, and an evaluation 20 seconds after
the first firing fires again. -/
theorem alert_cooldown_spec_witness :
    evalAlerts cfgS countsS 1000 initAlertState [] none =
        ⟨⟨some (8, 9), 1000, true⟩, some ⟨(8, 9), 1000⟩, [⟨(8, 9), 1000⟩],
          some ⟨(8, 9), 1000⟩⟩ ∧
      evalAlerts cfgS countsS 6000 ⟨some (8, 9), 1000, true⟩ [⟨(8, 9), 1000⟩]
          (some ⟨(8, 9), 1000⟩) =
        ⟨⟨some (8, 9), 1000, true⟩, some ⟨(8, 9), 1000⟩, [⟨(8, 9), 1000⟩], none⟩ ∧
      evalAlerts cfgS countsS 21000 ⟨some (8, 9), 1000, true⟩ [⟨(8, 9), 1000⟩]
          (some ⟨(8, 9), 1000⟩) =
        ⟨⟨some (8, 9), 21000, true⟩, some ⟨(8, 9), 21000⟩,
          [⟨(8, 9), 21000⟩, ⟨(8, 9), 1000⟩], some ⟨(8, 9), 21000⟩⟩ := by
  have htopL : topDigitOf [(18 : ℚ), 18, 18, 14, 0, 0, 0, 0, 20, 12] = 8 := by decide
  have htop : topDigitOf (probsOf countsS) = 8 := by
    rw [probsOf_countsS]
    exact htopL
  have hof : otherFocus cfgS 8 = 9 := by decide
  have hen : cfgS.alertsEnabled = true := rfl
  have htot : ¬ countsS.sum < 20 := by decide
  have hlen : cfgS.alertDigits.length = 2 := rfl
  have hin : ¬(topDigitOf (probsOf countsS) ≠ cfgS.alertDigits.getD 0 0 ∧
      topDigitOf (probsOf countsS) ≠ cfgS.alertDigits.getD 1 0) := by
    rw [htop]
    decide
  have hok : alertOk cfgS countsS = true := by
    simp only [alertOk, probsOf_countsS]
    decide
  refine ⟨?_, ?_, ?_⟩
  · have h := (alert_cooldown_spec cfgS countsS 1000 initAlertState [] none
      hen htot hlen hin hok).2 (by simp [initAlertState])
    rw [htop, hof] at h
    exact h.trans (by decide)
  · have h := (alert_cooldown_spec cfgS countsS 6000 ⟨some (8, 9), 1000, true⟩
      [⟨(8, 9), 1000⟩] (some ⟨(8, 9), 1000⟩) hen htot hlen hin hok).1
      (by
        rw [htop, hof]
        refine ⟨rfl, rfl, ?_⟩
        show (6000 : ℚ) - 1000 < cfgS.cooldownSec * 1000
        norm_num [cfgS])
    exact h
  · have h := (alert_cooldown_spec cfgS countsS 21000 ⟨some (8, 9), 1000, true⟩
      [⟨(8, 9), 1000⟩] (some ⟨(8, 9), 1000⟩) hen htot hlen hin hok).2
      (by
        rw [htop, hof]
        rintro ⟨-, -, hlt⟩
        rw [show ((21000 : ℚ) - 1000 < cfgS.cooldownSec * 1000) =
          ((21000 : ℚ) - 1000 < 20 * 1000) from rfl] at hlt
        norm_num at hlt)
    rw [htop, hof] at h
    exact h.trans (by decide)

/-- C7: alert gating.  No evaluation with total below 20 changes any
output or emits; the top digit of the scan is the argmax with ties
broken towards the lowest index; when the top digit is outside the
configured pair the evaluation only deactivates the state and emits
nothing; and an emission forces the compound AND of the two threshold
comparisons. -/
theorem alert_gating_spec (cfg : AlertConfig) (counts : List ℤ) (now : ℚ)
    (st : AlertState) (log : List AlertEntry) (banner : Option AlertEntry) :
    (counts.sum < 20 → evalAlerts cfg counts now st log banner = ⟨st, banner, log, none⟩) ∧
      (∀ probs : List ℚ, topDigitOf probs < 10 ∧
        (∀ j < 10, probs.getD j 0 ≤ probs.getD (topDigitOf probs) 0) ∧
        ∀ j < topDigitOf probs, probs.getD j 0 < probs.getD (topDigitOf probs) 0) ∧
      (cfg.alertsEnabled = true → ¬ counts.sum < 20 → cfg.alertDigits.length = 2 →
        topDigitOf (probsOf counts) ≠ cfg.alertDigits.getD 0 0 →
        topDigitOf (probsOf counts) ≠ cfg.alertDigits.getD 1 0 →
        evalAlerts cfg counts now st log banner =
          ⟨{ st with active := false }, banner, log, none⟩) ∧
      ((evalAlerts cfg counts now st log banner).emitted ≠ none →
        alertOk cfg counts = true ∧
        cfg.highThreshold ≤ (probsOf counts).getD (topDigitOf (probsOf counts)) 0 ∧
        cfg.pairThreshold ≤
          (probsOf counts).getD (otherFocus cfg (topDigitOf (probsOf counts))) 0) := by
  refine ⟨?_, topDigitOf_spec, ?_, ?_⟩
  · intro h
    simp only [evalAlerts]
    split_ifs <;> first | rfl | (exfalso; omega)
  · intro hen htot hlen hd1 hd2
    have hen2 : ¬ cfg.alertsEnabled = false := by
      rw [hen]
      simp
    have hlen2 : ¬ cfg.alertDigits.length ≠ 2 := by omega
    have hpair : topDigitOf (probsOf counts) ≠ cfg.alertDigits.getD 0 0 ∧
        topDigitOf (probsOf counts) ≠ cfg.alertDigits.getD 1 0 := ⟨hd1, hd2⟩
    simp only [evalAlerts, if_neg hen2, if_neg htot, if_neg hlen2, if_pos hpair]
  · intro hne
    simp only [evalAlerts] at hne
    split_ifs at hne with h1 h2 h3 h4 h5 h6
    · exact absurd rfl hne
    · exact absurd rfl hne
    · exact absurd rfl hne
    · exact absurd rfl hne
    · exact absurd rfl hne
    · have hth := alertOk_thresholds cfg counts h5
      exact ⟨h5, hth.1, hth.2⟩
    · exact absurd rfl hne

/-- Witness for C7 at concrete inputs: a sparse histogram is ignored,
the argmax properties hold on the 50-tick distribution, a top digit
outside the pair (0, 1) only deactivates, and the firing evaluation of
the C6 scenario satisfies the AND of both thresholds. -/
theorem alert_gating_spec_witness :
    (evalAlerts cfgS [1, 0, 0, 0, 0, 0, 0, 0, 0, 0] 0 initAlertState [] none =
        ⟨initAlertState, none, [], none⟩) ∧
      (topDigitOf (probsOf countsS) < 10 ∧
        (∀ j < 10, (probsOf countsS).getD j 0 ≤
          (probsOf countsS).getD (topDigitOf (probsOf countsS)) 0) ∧
        ∀ j < topDigitOf (probsOf countsS), (probsOf countsS).getD j 0 <
          (probsOf countsS).getD (topDigitOf (probsOf countsS)) 0) ∧
      (evalAlerts ⟨true, [0, 1], 15, 10, 20⟩ countsS 0 initAlertState [] none =
        ⟨{ initAlertState with active := false }, none, [], none⟩) ∧
      (alertOk cfgS countsS = true ∧
        cfgS.highThreshold ≤ (probsOf countsS).getD (topDigitOf (probsOf countsS)) 0 ∧
        cfgS.pairThreshold ≤
          (probsOf countsS).getD (otherFocus cfgS (topDigitOf (probsOf countsS))) 0) := by
  have htop : topDigitOf (probsOf countsS) = 8 := by
    rw [probsOf_countsS]
    decide
  refine ⟨?_, ?_, ?_, ?_⟩
  · exact (alert_gating_spec cfgS [1, 0, 0, 0, 0, 0, 0, 0, 0, 0] 0 initAlertState []
      none).1 (by decide)
  · exact (alert_gating_spec cfgS countsS 0 initAlertState [] none).2.1 (probsOf countsS)
  · exact (alert_gating_spec ⟨true, [0, 1], 15, 10, 20⟩ countsS 0 initAlertState []
      none).2.2.1 rfl (by decide) rfl (by rw [htop]; decide) (by rw [htop]; decide)
  · refine (alert_gating_spec cfgS countsS 1000 initAlertState [] none).2.2.2 ?_
    have hok : alertOk cfgS countsS = true := by
      simp only [alertOk, probsOf_countsS]
      decide
    have hfire := evalAlerts_fire cfgS countsS 1000 initAlertState [] none
      rfl (by decide) rfl (by rw [htop]; decide) hok (by simp [initAlertState])
    rw [hfire]
    simp

/-- C9 amended: whenever the configured focus-digit list does not have
exactly two entries, evaluation is refused without an exception: no
alert is emitted and every output, including the alert state, is left
unchanged.  (The source checks only the length; a list of two equal
in-range digits passes the check and can fire, see the
counterexample.) -/
theorem alert_refuses_nonpair (cfg : AlertConfig) (counts : List ℤ) (now : ℚ)
    (st : AlertState) (log : List AlertEntry) (banner : Option AlertEntry)
    (hlen : cfg.alertDigits.length ≠ 2) :
    evalAlerts cfg counts now st log banner = ⟨st, banner, log, none⟩ := by
  by_cases h1 : cfg.alertsEnabled = false
  · simp only [evalAlerts, if_pos h1]
  · by_cases h2 : counts.sum < 20
    · simp only [evalAlerts, if_neg h1, if_pos h2]
    · simp only [evalAlerts, if_neg h1, if_neg h2, if_pos hlen]

/-- Witness for the C9 amended claim at a three-entry digit list. -/
theorem alert_refuses_nonpair_witness :
    evalAlerts ⟨true, [1, 2, 3], 15, 10, 20⟩ countsS 0 initAlertState [] none =
      ⟨initAlertState, none, [], none⟩ :=
  alert_refuses_nonpair ⟨true, [1, 2, 3], 15, 10, 20⟩ countsS 0 initAlertState [] none
    (by decide)

/-- A pair of two equal digits, malformed in the sense of C9. -/
def cfgDup : AlertConfig := ⟨true, [7, 7], 15, 10, 20⟩

/-- A 50-tick histogram whose top digit 7 holds 20 percent. -/
def countsDup : List ℤ := [9, 9, 9, 7, 0, 0, 0, 10, 6, 0]

/-- Percentage distribution of the duplicate-pair histogram. -/
theorem probsOf_countsDup :
    probsOf countsDup = [18, 18, 18, 14, 0, 0, 0, 20, 12, 0] := by
  norm_num [probsOf, countsDup]

/-- Counterexample to C9 as stated: the focus list [7, 7] is not a
pair of two distinct digits, yet the evaluation is not refused - an
alert fires and the state becomes active. -/
theorem malformed_pair_fires_counterexample :
    cfgDup.alertDigits.getD 0 0 = cfgDup.alertDigits.getD 1 0 ∧
      cfgDup.alertDigits.length = 2 ∧
      (evalAlerts cfgDup countsDup 1000 initAlertState [] none).emitted =
        some ⟨(7, 7), 1000⟩ ∧
      (evalAlerts cfgDup countsDup 1000 initAlertState [] none).state.active = true := by
  have htop : topDigitOf (probsOf countsDup) = 7 := by
    rw [probsOf_countsDup]
    decide
  have hok : alertOk cfgDup countsDup = true := by
    simp only [alertOk, probsOf_countsDup]
    decide
  have hfire := evalAlerts_fire cfgDup countsDup 1000 initAlertState [] none
    rfl (by decide) rfl (by rw [htop]; decide) hok (by simp [initAlertState])
  rw [htop] at hfire
  have hof : otherFocus cfgDup 7 = 7 := by decide
  rw [hof] at hfire
  rw [hfire]
  refine ⟨by decide, by decide, rfl, rfl⟩

/- ------------------------------------------------------------------
   Minute aggregator (minuteKeyFromEpoch and updateMinuteBin,
   App.jsx lines 18-20 and 277-294)
------------------------------------------------------------------- -/

/-- Retention horizon in minutes (MAX_HISTORY_MINUTES). -/
def MAX_HISTORY_MINUTES : ℤ := 120

/-- minuteKeyFromEpoch from App.jsx: floor of the epoch seconds over
60, times 60. -/
def minuteKeyFromEpoch (epochSec : ℚ) : ℤ :=
  Int.floor (epochSec / 60) * 60

/-- One per-minute bin: its minute key, total, and ten counts. -/
structure MinuteBin where
  minute : ℤ
  total : ℕ
  counts : List ℕ
deriving DecidableEq

/-- The minuteBinsRef Map, modelled by its key-to-bin association. -/
def MinuteMap : Type := ℤ → Option MinuteBin

/-- updateMinuteBin from App.jsx: compute the minute key, create the
bin zeroed when absent, increment its total and the slot of the digit,
then delete every key below the cutoff, the current wall-clock second
(nowSec models the already floored Date.now()/1000) minus the
retention horizon in seconds. -/
def updateMinuteBin (nowSec : ℤ) (epochSec : ℚ) (digit : ℕ) (m : MinuteMap) :
    MinuteMap :=
  let mk := minuteKeyFromEpoch epochSec
  let bin := (m mk).getD ⟨mk, 0, List.replicate 10 0⟩
  let bin2 : MinuteBin :=
    ⟨bin.minute, bin.total + 1, bin.counts.set digit (bin.counts.getD digit 0 + 1)⟩
  let m2 : MinuteMap := fun k => if k = mk then some bin2 else m k
  let cutoff := nowSec - MAX_HISTORY_MINUTES * 60
  fun k => if k < cutoff then none else m2 k

/-- The minute key of an integer second is at most that second. -/
theorem minuteKey_le_self (n : ℤ) : minuteKeyFromEpoch (n : ℚ) ≤ n := by
  unfold minuteKeyFromEpoch
  have h1 : (Int.floor ((n : ℚ) / 60) : ℚ) ≤ (n : ℚ) / 60 := Int.floor_le _
  have h2 : ((Int.floor ((n : ℚ) / 60) * 60 : ℤ) : ℚ) ≤ (n : ℚ) := by
    push_cast
    linarith
  exact_mod_cast h2

/-- C5: record computes the minute key as floor(epochSeconds/60)*60;
when the key is not pruned, an absent bin is created zeroed and ends
with total 1 and a single count on the digit slot, and a present bin
has its total and digit slot incremented by one; and afterwards every
bin whose key is below the current minute key minus the retention of
120 minutes in seconds is gone from the mapping. -/
theorem updateMinuteBin_spec (nowSec : ℤ) (epochSec : ℚ) (digit : ℕ) (m : MinuteMap) :
    minuteKeyFromEpoch epochSec = Int.floor (epochSec / 60) * 60 ∧
      (¬ minuteKeyFromEpoch epochSec < nowSec - MAX_HISTORY_MINUTES * 60 →
        (m (minuteKeyFromEpoch epochSec) = none →
          updateMinuteBin nowSec epochSec digit m (minuteKeyFromEpoch epochSec) =
            some ⟨minuteKeyFromEpoch epochSec, 1, (List.replicate 10 0).set digit 1⟩)) ∧
      (¬ minuteKeyFromEpoch epochSec < nowSec - MAX_HISTORY_MINUTES * 60 →
        ∀ b, m (minuteKeyFromEpoch epochSec) = some b →
          updateMinuteBin nowSec epochSec digit m (minuteKeyFromEpoch epochSec) =
            some ⟨b.minute, b.total + 1,
              b.counts.set digit (b.counts.getD digit 0 + 1)⟩) ∧
      ∀ k, k < minuteKeyFromEpoch (nowSec : ℚ) - MAX_HISTORY_MINUTES * 60 →
        updateMinuteBin nowSec epochSec digit m k = none := by
  refine ⟨rfl, ?_, ?_, ?_⟩
  · intro hcut habs
    show (if minuteKeyFromEpoch epochSec < nowSec - MAX_HISTORY_MINUTES * 60 then none
      else if minuteKeyFromEpoch epochSec = minuteKeyFromEpoch epochSec then _ else _) = _
    rw [if_neg hcut, if_pos rfl, habs]
    have hz : (List.replicate 10 (0 : ℕ)).getD digit 0 = 0 := getD_replicate_self 0 10 digit
    simp only [Option.getD_some, Option.getD_none]
    rw [hz]
  · intro hcut b hb
    show (if minuteKeyFromEpoch epochSec < nowSec - MAX_HISTORY_MINUTES * 60 then none
      else if minuteKeyFromEpoch epochSec = minuteKeyFromEpoch epochSec then _ else _) = _
    rw [if_neg hcut, if_pos rfl, hb]
    simp only [Option.getD_some]
  · intro k hk
    have hle : minuteKeyFromEpoch (nowSec : ℚ) ≤ nowSec := minuteKey_le_self nowSec
    show (if k < nowSec - MAX_HISTORY_MINUTES * 60 then none else _) = none
    rw [if_pos (by omega)]

/-- Witness for C5: one tick at epoch second 10000 with digit 3 and
wall clock 10000 creates the bin at key 9960 with total 1 and a single
count in slot 3, and the very old key 0 is absent. -/
theorem updateMinuteBin_spec_witness :
    updateMinuteBin 10000 10000 3 (fun _ => none) 9960 =
        some ⟨9960, 1, [0, 0, 0, 1, 0, 0, 0, 0, 0, 0]⟩ ∧
      updateMinuteBin 10000 10000 3 (fun _ => none) 0 = none := by
  have hfl : Int.floor ((10000 : ℚ) / 60) = 166 := by
    rw [Int.floor_eq_iff]
    norm_num
  have hmk : minuteKeyFromEpoch (10000 : ℚ) = 9960 := by
    unfold minuteKeyFromEpoch
    rw [hfl]
    decide
  have hcast : (((10000 : ℤ)) : ℚ) = (10000 : ℚ) := by norm_num
  constructor
  · have h := (updateMinuteBin_spec 10000 10000 3 (fun _ => none)).2.1
      (by rw [hmk]; decide) rfl
    rw [hmk] at h
    exact h.trans (by decide)
  · exact (updateMinuteBin_spec 10000 10000 3 (fun _ => none)).2.2.2 0
      (by rw [hcast, hmk]; decide)

/- ------------------------------------------------------------------
   App-level state: resetStats, window resize, symbol change
   (App.jsx lines 257-264, 296-311, 405-410, 567-575)
------------------------------------------------------------------- -/

/-- The statistics-relevant state of the App component: configuration,
rolling window refs and state, minute bins, the published minute
history, and the alert outputs. -/
structure StatsCore where
  windowSize : ℕ
  symbol : String
  digitWindow : List ℕ
  counts : List ℤ
  lastDigit : Option ℕ
  minuteBins : MinuteMap
  minuteHistory : List MinuteBin
  alertCfg : AlertConfig
  alertState : AlertState
  alertLog : List AlertEntry
  alertBanner : Option AlertEntry

/-- Initial component state with the source defaults. -/
def initCore : StatsCore :=
  ⟨200, "R_100", [], List.replicate 10 0, none, (fun _ => none), [],
    cfgS, initAlertState, [], none⟩

/-- resetStats from App.jsx: empty the digit window, empty the minute
bins, zero the counts, clear the last digit, clear the minute history,
and set the window size to the given value.  Nothing else is
touched. -/
def resetStats (n : ℕ) (s : StatsCore) : StatsCore :=
  { s with
    digitWindow := []
    minuteBins := (fun _ => none)
    counts := List.replicate 10 0
    lastDigit := none
    minuteHistory := []
    windowSize := n }

/-- The window size input handler: clamp the entered value into
[20, 5000] and reset the statistics with the clamped size. -/
def changeWindowSize (v : ℤ) (s : StatsCore) : StatsCore :=
  resetStats (Int.toNat (max 20 (min 5000 v))) s

/-- onChangeSymbol from App.jsx: set the new symbol and reset the
statistics keeping the current window size. -/
def onChangeSymbol (newSymbol : String) (s : StatsCore) : StatsCore :=
  resetStats s.windowSize { s with symbol := newSymbol }

/-- The tick handler path of the source: record the last digit, push
into the rolling window, and update the minute bins. -/
def pushTick (s : StatsCore) (d : ℕ) (epochSec : ℚ) (nowSec : ℤ) : StatsCore :=
  let r := pushDigit s.windowSize ⟨s.digitWindow, s.counts⟩ d
  { s with
    lastDigit := some d
    digitWindow := r.window
    counts := r.counts
    minuteBins := updateMinuteBin nowSec epochSec d s.minuteBins }

/-- Twenty-five pushes of digit 7 into a window of size 25. -/
def stateAfter25 : StatsCore :=
  (List.replicate 25 7).foldl (fun s d => pushTick s d 0 0) (resetStats 25 initCore)

/-- Counterexample to C8 as stated: after 25 pushes the FIFO holds 25
digits; resizing down to 20 does not truncate to the most recent 20
entries - it clears the FIFO entirely. -/
theorem resize_truncation_counterexample :
    stateAfter25.digitWindow.length = 25 ∧
      (changeWindowSize 20 stateAfter25).digitWindow = [] ∧
      (changeWindowSize 20 stateAfter25).digitWindow ≠
        stateAfter25.digitWindow.drop 5 := by
  refine ⟨by decide, rfl, ?_⟩
  intro h
  have h2 : stateAfter25.digitWindow.drop 5 = List.replicate 20 7 := by decide
  rw [h2] at h
  exact absurd h (by decide)

/-- C8 amended: the window size handler resets rather than truncates:
for every entered value the FIFO is emptied, the histogram is zeroed,
and the window size becomes the entered value clamped into [20, 5000];
consequently shrinking and then enlarging recovers no data, and the
FIFO length after the second resize is zero, at most the shrunken
size. -/
theorem resize_resets (v : ℤ) (s : StatsCore) :
    (changeWindowSize v s).digitWindow = [] ∧
      (changeWindowSize v s).counts = List.replicate 10 0 ∧
      (changeWindowSize v s).windowSize = Int.toNat (max 20 (min 5000 v)) ∧
      ∀ v2 : ℤ, (changeWindowSize v2 (changeWindowSize v s)).digitWindow.length ≤
        (changeWindowSize v s).windowSize :=
  ⟨rfl, rfl, rfl, fun _ => Nat.zero_le _⟩

/-- C10: changing the symbol resets the whole statistics state - the
FIFO is emptied, the histogram zeroed, the last digit cleared, the
minute bins emptied, the minute history cleared - while the window
size, the alert configuration, the alert state, and the alert log are
left unchanged, and the symbol becomes the new one. -/
theorem onChangeSymbol_frame (newSymbol : String) (s : StatsCore) :
    ((onChangeSymbol newSymbol s).digitWindow = [] ∧
      (onChangeSymbol newSymbol s).counts = List.replicate 10 0 ∧
      (onChangeSymbol newSymbol s).lastDigit = none ∧
      (∀ k, (onChangeSymbol newSymbol s).minuteBins k = none) ∧
      (onChangeSymbol newSymbol s).minuteHistory = []) ∧
      (onChangeSymbol newSymbol s).windowSize = s.windowSize ∧
      (onChangeSymbol newSymbol s).alertCfg = s.alertCfg ∧
      (onChangeSymbol newSymbol s).alertState = s.alertState ∧
      (onChangeSymbol newSymbol s).alertLog = s.alertLog ∧
      (onChangeSymbol newSymbol s).alertBanner = s.alertBanner ∧
      (onChangeSymbol newSymbol s).symbol = newSymbol :=
  ⟨⟨rfl, rfl, rfl, fun _ => rfl, rfl⟩, rfl, rfl, rfl, rfl, rfl, rfl⟩
